import Mathlib

/-!
Verification of the `adrgen` record lifecycle engine.

The Go sources are shallowly embedded over `List Char`: each Go string is a
list of characters, Go standard-library string operations are translated to
structural list functions, and stateful loops become explicit recursion with
the loop flags passed as arguments.  File-system interaction is modelled by
passing a directory listing (a list of entries) as an explicit argument.

Source files:
* `main.go` — the interactive front end (kebab-case slug, template renderer,
  index builder, ADR number derivation, status-history merge `updateStatus`).
* the unnamed flag-based front end — same helpers plus a textual
  `strings.ReplaceAll` status rewrite in its update branch.
-/

namespace Adrgen

/-- Go strings are modelled as lists of characters (runes). -/
abbrev Str := List Char

/-! ## Go string primitives -/

/-- `strings.HasPrefix`: `hasPrefixL p s` is `true` iff `s` starts with `p`. -/
def hasPrefixL : Str → Str → Bool
  | [], _ => true
  | _ :: _, [] => false
  | a :: as, b :: bs => a == b && hasPrefixL as bs

/-- `strings.HasSuffix`: `hasSuffixL p s` is `true` iff `s` ends with `p`. -/
def hasSuffixL (p s : Str) : Bool := hasPrefixL p.reverse s.reverse

/-- `strings.TrimPrefix`: remove `p` from the front of `s` when present. -/
def goTrimPrefix (p s : Str) : Str :=
  if hasPrefixL p s then s.drop p.length else s

/-- `strings.TrimSuffix`: remove `p` from the end of `s` when present. -/
def goTrimSuffix (p s : Str) : Str :=
  if hasSuffixL p s then s.take (s.length - p.length) else s

/-- `unicode.IsSpace` restricted to the white-space characters that occur in
text files handled by the tool (Go additionally treats two legacy Latin-1
code points as spaces, included here for fidelity). -/
def isGoSpace (c : Char) : Bool :=
  c = ' ' || c = '\t' || c = '\n' || c = '\x0b' || c = '\x0c' || c = '\r' ||
  c = '\u0085' || c = ' '

/-- `strings.TrimSpace`: drop white space from both ends. -/
def goTrimSpace (s : Str) : Str :=
  ((s.dropWhile isGoSpace).reverse.dropWhile isGoSpace).reverse

/-- `strings.Split(s, sep)` for a one-character separator (the engine only
splits on `"\n"` and `"-"`).  Always returns a non-empty list of segments. -/
def splitOnChar (sep : Char) : Str → List Str
  | [] => [[]]
  | c :: rest =>
    if c = sep then [] :: splitOnChar sep rest
    else List.modifyHead (c :: ·) (splitOnChar sep rest)

/-- `strings.Join(ls, sep)` for a one-character separator. -/
def joinSep (sep : Char) : List Str → Str
  | [] => []
  | [l] => l
  | l :: ls => l ++ sep :: joinSep sep ls

/-- `strings.SplitN(s, sep, 2)` for a one-character separator: split at the
first occurrence only. -/
def splitFirst (sep : Char) : Str → List Str
  | [] => [[]]
  | c :: rest =>
    if c = sep then [[], rest]
    else List.modifyHead (c :: ·) (splitFirst sep rest)

/-- `strings.ReplaceAll(s, p, r)`, fuelled so that the definition is
structural; `replaceAllL` below supplies the fuel.  Replaces non-overlapping
occurrences of `p` left to right. -/
def replaceAllAux (p r : Str) : Nat → Str → Str
  | _, [] => []
  | 0, l => l
  | fuel + 1, c :: rest =>
    if hasPrefixL p (c :: rest) then
      r ++ replaceAllAux p r fuel (List.drop (p.length - 1) rest)
    else c :: replaceAllAux p r fuel rest

/-- `strings.ReplaceAll(s, p, r)` for a non-empty pattern `p`. -/
def replaceAllL (p r s : Str) : Str := replaceAllAux p r s.length s

/-- `strings.ToLower` (ASCII case mapping, which is all the slug formatter
needs; non-ASCII characters pass through unchanged just as in Go for the
inputs the tool handles). -/
def goToLower (s : Str) : Str := s.map Char.toLower

/-! ## Lemmas about the primitives -/

theorem hasPrefixL_append_self (p x : Str) : hasPrefixL p (p ++ x) = true := by
  induction p with
  | nil => simp [hasPrefixL]
  | cons a t ih => simp [hasPrefixL, ih]

theorem hasPrefixL_eq_append {p l : Str} (h : hasPrefixL p l = true) :
    ∃ t, l = p ++ t := by
  induction p generalizing l with
  | nil => exact ⟨l, rfl⟩
  | cons a t ih =>
    cases l with
    | nil => simp [hasPrefixL] at h
    | cons b m =>
      simp only [hasPrefixL, Bool.and_eq_true, beq_iff_eq] at h
      obtain ⟨rfl, h2⟩ := h
      obtain ⟨u, rfl⟩ := ih h2
      exact ⟨u, rfl⟩

theorem splitOnChar_ne_nil (sep : Char) (s : Str) : splitOnChar sep s ≠ [] := by
  induction s with
  | nil => simp [splitOnChar]
  | cons c rest ih =>
    obtain ⟨l, ls, hs⟩ := List.exists_cons_of_ne_nil ih
    by_cases hc : c = sep <;> simp [splitOnChar, hc, hs, List.modifyHead]

theorem joinSep_cons (sep : Char) (l : Str) (ls : List Str) (h : ls ≠ []) :
    joinSep sep (l :: ls) = l ++ sep :: joinSep sep ls := by
  cases ls with
  | nil => simp at h
  | cons a as => rfl

theorem joinSep_split (sep : Char) (s : Str) :
    joinSep sep (splitOnChar sep s) = s := by
  induction s with
  | nil => rfl
  | cons c rest ih =>
    have hex : ∃ l ls, splitOnChar sep rest = l :: ls := by
      cases hs : splitOnChar sep rest with
      | nil => exact (splitOnChar_ne_nil sep rest hs).elim
      | cons l ls => exact ⟨l, ls, rfl⟩
    obtain ⟨l, ls, hs⟩ := hex
    rw [hs] at ih
    by_cases hc : c = sep
    · subst hc
      rw [show splitOnChar c (c :: rest) = [] :: l :: ls by
        simp [splitOnChar, hs]]
      rw [joinSep_cons _ _ _ (by simp), List.nil_append, ih]
    · rw [show splitOnChar sep (c :: rest) = (c :: l) :: ls by
        simp [splitOnChar, hs, hc, List.modifyHead]]
      cases ls with
      | nil => simpa [joinSep] using congrArg (c :: ·) ih
      | cons m ms =>
        rw [joinSep_cons _ _ _ (by simp)] at ih ⊢
        rw [List.cons_append, ih]

theorem mem_splitOnChar_not_sep {sep : Char} {s : Str} :
    ∀ l ∈ splitOnChar sep s, sep ∉ l := by
  induction s with
  | nil => intro l hl; simp [splitOnChar] at hl; simp [hl]
  | cons c rest ih =>
    intro l hl
    have hex : ∃ a as, splitOnChar sep rest = a :: as := by
      cases hs : splitOnChar sep rest with
      | nil => exact (splitOnChar_ne_nil sep rest hs).elim
      | cons a as => exact ⟨a, as, rfl⟩
    obtain ⟨a, as, hs⟩ := hex
    by_cases hc : c = sep
    · subst hc
      rw [show splitOnChar c (c :: rest) = [] :: a :: as by simp [splitOnChar, hs]] at hl
      rcases List.mem_cons.1 hl with h | h
      · simp [h]
      · exact ih l (hs ▸ h)
    · rw [show splitOnChar sep (c :: rest) = (c :: a) :: as by
        simp [splitOnChar, hs, hc, List.modifyHead]] at hl
      rcases List.mem_cons.1 hl with h | h
      · subst h
        intro hmem
        rcases List.mem_cons.1 hmem with h | h
        · exact hc h.symm
        · exact ih a (hs ▸ List.mem_cons_self a as) h
      · exact ih l (hs ▸ List.mem_cons_of_mem a h)

theorem splitOnChar_not_mem {sep : Char} {l : Str} (h : sep ∉ l) :
    splitOnChar sep l = [l] := by
  induction l with
  | nil => rfl
  | cons c rest ih =>
    have hc : c ≠ sep := fun he => h (he ▸ List.mem_cons_self c rest)
    have hrest : sep ∉ rest := fun hm => h (List.mem_cons_of_mem c hm)
    simp [splitOnChar, hc, ih hrest, List.modifyHead]

theorem splitOnChar_append_sep {sep : Char} {l : Str} (h : sep ∉ l) (t : Str) :
    splitOnChar sep (l ++ sep :: t) = l :: splitOnChar sep t := by
  induction l with
  | nil => simp [splitOnChar]
  | cons c rest ih =>
    have hc : c ≠ sep := fun he => h (he ▸ List.mem_cons_self c rest)
    have hrest : sep ∉ rest := fun hm => h (List.mem_cons_of_mem c hm)
    have hex : ∃ a as, splitOnChar sep (rest ++ sep :: t) = a :: as := by
      cases hs : splitOnChar sep (rest ++ sep :: t) with
      | nil => exact (splitOnChar_ne_nil sep _ hs).elim
      | cons a as => exact ⟨a, as, rfl⟩
    obtain ⟨a, as, hs⟩ := hex
    have := ih hrest
    rw [hs] at this
    obtain ⟨rfl, rfl⟩ : a = rest ∧ as = splitOnChar sep t := by
      cases this; exact ⟨rfl, rfl⟩
    simp [splitOnChar, hc, hs, List.modifyHead]

theorem goTrimSuffix_append (x p : Str) : goTrimSuffix p (x ++ p) = x := by
  unfold goTrimSuffix hasSuffixL
  rw [List.reverse_append, hasPrefixL_append_self, if_pos rfl]
  simp

theorem mem_goTrimSpace {c : Char} {s : Str} (h : c ∈ goTrimSpace s) : c ∈ s := by
  unfold goTrimSpace at h
  rw [List.mem_reverse] at h
  have h2 := (List.dropWhile_sublist _).mem h
  rw [List.mem_reverse] at h2
  exact (List.dropWhile_sublist _).mem h2

theorem split_joinSep {sep : Char} :
    ∀ {ls : List Str}, ls ≠ [] → (∀ l ∈ ls, sep ∉ l) →
      splitOnChar sep (joinSep sep ls) = ls
  | [], h, _ => absurd rfl h
  | [l], _, hm => by
      simpa [joinSep] using splitOnChar_not_mem (hm l (by simp))
  | l :: m :: ms, _, hm => by
      rw [joinSep_cons _ _ _ (by simp)]
      rw [splitOnChar_append_sep (hm l (by simp))]
      rw [split_joinSep (by simp) (fun x hx => hm x (List.mem_cons_of_mem l hx))]

/-! ## Status history merger (`main.go`, `getCurrentStatus` / `updateStatus`) -/

/-- The status-field marker `"**Status**: "`. -/
def statusMarkerL : Str := "**Status**: ".data

/-- The previous-status-field marker `"**Previous Status**: "`. -/
def prevMarkerL : Str := "**Previous Status**: ".data

/-- The date-field marker `"**Date**: "`. -/
def dateMarkerL : Str := "**Date**: ".data

/-- The record-heading marker `"# ADR"`. -/
def headingMarkerL : Str := "# ADR".data

/-- A line beginning with the status-field marker. -/
def isStatusL (l : Str) : Bool := hasPrefixL statusMarkerL l

/-- A line beginning with the previous-status-field marker. -/
def isPrevL (l : Str) : Bool := hasPrefixL prevMarkerL l

/-- A line beginning with the date-field marker. -/
def isDateL (l : Str) : Bool := hasPrefixL dateMarkerL l

/-- A line beginning with the record-heading marker. -/
def isHeadingL (l : Str) : Bool := hasPrefixL headingMarkerL l

theorem isStatusL_status_append (x : Str) : isStatusL (statusMarkerL ++ x) = true :=
  hasPrefixL_append_self ..

theorem isPrevL_prev_append (x : Str) : isPrevL (prevMarkerL ++ x) = true :=
  hasPrefixL_append_self ..

theorem isPrevL_status_append (x : Str) : isPrevL (statusMarkerL ++ x) = false := rfl

theorem isStatusL_prev_append (x : Str) : isStatusL (prevMarkerL ++ x) = false := rfl

theorem isDateL_status_append (x : Str) : isDateL (statusMarkerL ++ x) = false := rfl

theorem isDateL_prev_append (x : Str) : isDateL (prevMarkerL ++ x) = false := rfl

theorem isHeadingL_status_append (x : Str) : isHeadingL (statusMarkerL ++ x) = false := rfl

theorem isHeadingL_prev_append (x : Str) : isHeadingL (prevMarkerL ++ x) = false := rfl

theorem isStatusL_heading_append (x : Str) : isStatusL (headingMarkerL ++ x) = false := rfl

theorem isPrevL_heading_append (x : Str) : isPrevL (headingMarkerL ++ x) = false := rfl

theorem isDateL_heading_append (x : Str) : isDateL (headingMarkerL ++ x) = false := rfl

theorem not_prev_of_status {l : Str} (h : isStatusL l = true) : isPrevL l = false := by
  obtain ⟨t, rfl⟩ := hasPrefixL_eq_append h
  exact isPrevL_status_append t

theorem not_date_of_status {l : Str} (h : isStatusL l = true) : isDateL l = false := by
  obtain ⟨t, rfl⟩ := hasPrefixL_eq_append h
  exact isDateL_status_append t

theorem not_date_of_prev {l : Str} (h : isPrevL l = true) : isDateL l = false := by
  obtain ⟨t, rfl⟩ := hasPrefixL_eq_append h
  exact isDateL_prev_append t

theorem not_status_of_prev {l : Str} (h : isPrevL l = true) : isStatusL l = false := by
  obtain ⟨t, rfl⟩ := hasPrefixL_eq_append h
  exact isStatusL_prev_append t

theorem not_status_of_heading {l : Str} (h : isHeadingL l = true) : isStatusL l = false := by
  obtain ⟨t, rfl⟩ := hasPrefixL_eq_append h
  exact isStatusL_heading_append t

theorem not_prev_of_heading {l : Str} (h : isHeadingL l = true) : isPrevL l = false := by
  obtain ⟨t, rfl⟩ := hasPrefixL_eq_append h
  exact isPrevL_heading_append t

theorem not_date_of_heading {l : Str} (h : isHeadingL l = true) : isDateL l = false := by
  obtain ⟨t, rfl⟩ := hasPrefixL_eq_append h
  exact isDateL_heading_append t

theorem not_heading_of_status {l : Str} (h : isStatusL l = true) : isHeadingL l = false := by
  obtain ⟨t, rfl⟩ := hasPrefixL_eq_append h
  exact isHeadingL_status_append t

theorem not_heading_of_prev {l : Str} (h : isPrevL l = true) : isHeadingL l = false := by
  obtain ⟨t, rfl⟩ := hasPrefixL_eq_append h
  exact isHeadingL_prev_append t

/-- The lines of a record body, as split by `strings.Split(content, "\n")`. -/
def linesOfL (content : Str) : List Str := splitOnChar '\n' content

/-- `getCurrentStatus` from `main.go`: the trimmed value of the first line
beginning with the status-field marker, or `""` when there is none. -/
def getCurrentStatusL (content : Str) : Str :=
  match (linesOfL content).find? isStatusL with
  | some line => goTrimSpace (goTrimPrefix statusMarkerL line)
  | none => []

/-- The status line written by the rewrite loop of `updateStatus`
(`fmt.Sprintf("**Status**: %s  ", newStatus)`). -/
def statusLine2 (ns : Str) : Str := statusMarkerL ++ (ns ++ [' ', ' '])

/-- The previous-status line written by the rewrite loop of `updateStatus`
(`fmt.Sprintf("**Previous Status**: %s  ", currentStatus)`). -/
def prevLine2 (cs : Str) : Str := prevMarkerL ++ (cs ++ [' ', ' '])

/-- The status line written by the insertion pass of `updateStatus`
(`fmt.Sprintf("**Status**: %s", newStatus)`). -/
def statusLine0 (ns : Str) : Str := statusMarkerL ++ ns

/-- The previous-status line written by the insertion pass of `updateStatus`
(`fmt.Sprintf("**Previous Status**: %s", currentStatus)`). -/
def prevLine0 (cs : Str) : Str := prevMarkerL ++ cs

/-- The first loop of `updateStatus`: walks the lines carrying the
`statusFound` and `dateFound` flags; replaces the first status line with the
new status/previous-status pair, drops later status lines, drops every
previous-status line, and keeps only the first date line.  Returns the
processed lines together with the final `statusFound` flag. -/
def statusPass (ns cs : Str) : Bool → Bool → List Str → List Str × Bool
  | sf, _, [] => ([], sf)
  | sf, df, l :: rest =>
    if isStatusL l then
      let t := statusPass ns cs true df rest
      if sf then t else (statusLine2 ns :: prevLine2 cs :: t.1, t.2)
    else if isPrevL l then statusPass ns cs sf df rest
    else if isDateL l then
      if df then statusPass ns cs sf df rest
      else
        let t := statusPass ns cs sf true rest
        (l :: t.1, t.2)
    else
      let t := statusPass ns cs sf df rest
      (l :: t.1, t.2)

/-- The second loop of `updateStatus` (only run when no status line was
found): copy the lines, and after every line beginning with the record
heading marker insert a blank line, the new status line and the
previous-status line. -/
def insertPass (ns cs : Str) : List Str → List Str
  | [] => []
  | l :: rest =>
    if isHeadingL l then
      l :: [] :: statusLine0 ns :: prevLine0 cs :: insertPass ns cs rest
    else l :: insertPass ns cs rest

/-- `updateStatus` from `main.go`: the status-history merge. -/
def updateStatusL (content newStatus : Str) : Str :=
  let currentStatus := getCurrentStatusL content
  if currentStatus = newStatus then content
  else
    let lines := linesOfL content
    let t := statusPass newStatus currentStatus false false lines
    let newLines :=
      if t.2 then t.1
      else if t.1.any isHeadingL then insertPass newStatus currentStatus t.1
      else statusLine0 newStatus :: prevLine0 currentStatus :: [] :: t.1
    joinSep '\n' newLines

/-! ## Characterization helpers for `updateStatusL` -/

/-- How the first loop of `updateStatus` treats lines once the status pair
has been emitted (and, since they never match the status branch, also how it
treats the status-free prefix): status and previous-status lines are
dropped, only the first date line is kept, everything else is copied. -/
def cleanPass (df : Bool) : List Str → List Str
  | [] => []
  | l :: rest =>
    if isStatusL l then cleanPass df rest
    else if isPrevL l then cleanPass df rest
    else if isDateL l then
      if df then cleanPass df rest else l :: cleanPass true rest
    else l :: cleanPass df rest

/-- The `dateFound` flag after processing `ls`. -/
def dfAfter (df : Bool) (ls : List Str) : Bool := df || ls.any isDateL

theorem statusPass_true (ns cs : Str) :
    ∀ (ls : List Str) (df : Bool),
      statusPass ns cs true df ls = (cleanPass df ls, true) := by
  intro ls
  induction ls with
  | nil => intro df; rfl
  | cons l rest ih =>
    intro df
    by_cases h1 : isStatusL l
    · simp [statusPass, cleanPass, h1, ih]
    · by_cases h2 : isPrevL l
      · simp [statusPass, cleanPass, h1, h2, ih]
      · by_cases h3 : isDateL l
        · by_cases h4 : df <;> simp [statusPass, cleanPass, h1, h2, h3, h4, ih]
        · simp [statusPass, cleanPass, h1, h2, h3, ih]

theorem cleanPass_append (df : Bool) (P Q : List Str) :
    cleanPass df (P ++ Q) = cleanPass df P ++ cleanPass (dfAfter df P) Q := by
  induction P generalizing df with
  | nil => simp [cleanPass, dfAfter]
  | cons l rest ih =>
    by_cases h1 : isStatusL l
    · simp [cleanPass, h1, ih, dfAfter, not_date_of_status h1]
    · by_cases h2 : isPrevL l
      · simp [cleanPass, h1, h2, ih, dfAfter, not_date_of_prev h2]
      · by_cases h3 : isDateL l
        · by_cases h4 : df <;>
            simp [cleanPass, h1, h2, h3, h4, ih, dfAfter, List.any_cons]
        · simp [cleanPass, h1, h2, h3, ih, dfAfter, List.any_cons]

theorem statusPass_front (ns cs : Str) (sf df : Bool) (P rest : List Str)
    (hP : ∀ l ∈ P, isStatusL l = false) :
    statusPass ns cs sf df (P ++ rest) =
      (cleanPass df P ++ (statusPass ns cs sf (dfAfter df P) rest).1,
        (statusPass ns cs sf (dfAfter df P) rest).2) := by
  induction P generalizing df with
  | nil => simp [cleanPass, dfAfter]
  | cons l tl ih =>
    have h1 : isStatusL l = false := hP l (by simp)
    have htl : ∀ x ∈ tl, isStatusL x = false := fun x hx => hP x (by simp [hx])
    by_cases h2 : isPrevL l
    · simp [statusPass, cleanPass, h1, h2, ih df htl, dfAfter, not_date_of_prev h2]
    · by_cases h3 : isDateL l
      · by_cases h4 : df <;>
          simp [statusPass, cleanPass, h1, h2, h3, h4, ih true htl, ih df htl,
            dfAfter, List.any_cons]
      · simp [statusPass, cleanPass, h1, h2, h3, ih df htl, dfAfter, List.any_cons]

theorem statusPass_nostatus (ns cs : Str) (sf df : Bool) (ls : List Str)
    (h : ∀ l ∈ ls, isStatusL l = false) :
    statusPass ns cs sf df ls = (cleanPass df ls, sf) := by
  have := statusPass_front ns cs sf df ls [] h
  simpa [statusPass] using this

theorem mem_cleanPass {df : Bool} {ls : List Str} {l : Str}
    (h : l ∈ cleanPass df ls) :
    l ∈ ls ∧ isStatusL l = false ∧ isPrevL l = false := by
  induction ls generalizing df with
  | nil => simp [cleanPass] at h
  | cons x rest ih =>
    by_cases h1 : isStatusL x
    · have := @ih df (by simpa [cleanPass, h1] using h)
      exact ⟨by simp [this.1], this.2⟩
    · by_cases h2 : isPrevL x
      · have := @ih df (by simpa [cleanPass, h1, h2] using h)
        exact ⟨by simp [this.1], this.2⟩
      · by_cases h3 : isDateL x
        · by_cases h4 : df
          · have := @ih df (by simpa [cleanPass, h1, h2, h3, h4] using h)
            exact ⟨by simp [this.1], this.2⟩
          · rw [cleanPass, if_neg (by simp [h1]), if_neg (by simp [h2]),
              if_pos h3, if_neg h4] at h
            rcases List.mem_cons.1 h with rfl | hm
            · exact ⟨by simp, by simp [h1], by simp [h2]⟩
            · have := @ih true hm
              exact ⟨by simp [this.1], this.2⟩
        · rw [cleanPass, if_neg (by simp [h1]), if_neg (by simp [h2]),
            if_neg (by simp [h3])] at h
          rcases List.mem_cons.1 h with rfl | hm
          · exact ⟨by simp, by simp [h1], by simp [h2]⟩
          · have := @ih df hm
            exact ⟨by simp [this.1], this.2⟩

theorem cleanPass_head_keep {df : Bool} {l : Str} {ls : List Str}
    (h1 : isStatusL l = false) (h2 : isPrevL l = false)
    (h3 : isDateL l = false) :
    cleanPass df (l :: ls) = l :: cleanPass df ls := by
  rw [cleanPass, if_neg (by simp [h1]), if_neg (by simp [h2]),
    if_neg (by simp [h3])]

theorem isHeadingL_date_append (x : Str) : isHeadingL (dateMarkerL ++ x) = false := rfl

theorem not_heading_of_date {l : Str} (h : isDateL l = true) : isHeadingL l = false := by
  obtain ⟨t, rfl⟩ := hasPrefixL_eq_append h
  exact isHeadingL_date_append t

/-- Lines the merge never rewrites: neither status, previous-status, nor
date lines. -/
def keepL (l : Str) : Bool := !isStatusL l && !isPrevL l && !isDateL l

theorem cleanPass_filter_keep (df : Bool) (ls : List Str) :
    (cleanPass df ls).filter keepL = ls.filter keepL := by
  induction ls generalizing df with
  | nil => rfl
  | cons l rest ih =>
    by_cases h1 : isStatusL l
    · simp [cleanPass, h1, ih, keepL, List.filter_cons]
    · by_cases h2 : isPrevL l
      · simp [cleanPass, h1, h2, ih, keepL, List.filter_cons]
      · by_cases h3 : isDateL l
        · by_cases h4 : df <;>
            simp [cleanPass, h1, h2, h3, h4, ih, keepL, List.filter_cons]
        · simp [cleanPass, h1, h2, h3, ih, keepL, List.filter_cons]

theorem cleanPass_filter_date (df : Bool) (ls : List Str) :
    (cleanPass df ls).filter isDateL =
      if df then [] else (ls.filter isDateL).take 1 := by
  induction ls generalizing df with
  | nil => simp [cleanPass]
  | cons l rest ih =>
    by_cases h1 : isStatusL l
    · simp [cleanPass, h1, ih, List.filter_cons, not_date_of_status h1]
    · by_cases h2 : isPrevL l
      · simp [cleanPass, h1, h2, ih, List.filter_cons, not_date_of_prev h2]
      · by_cases h3 : isDateL l
        · by_cases h4 : df <;>
            simp [cleanPass, h1, h2, h3, h4, ih, List.filter_cons]
        · simp [cleanPass, h1, h2, h3, ih, List.filter_cons]

theorem cleanPass_any_heading (df : Bool) (ls : List Str) :
    (cleanPass df ls).any isHeadingL = ls.any isHeadingL := by
  induction ls generalizing df with
  | nil => rfl
  | cons l rest ih =>
    by_cases h1 : isStatusL l
    · simp [cleanPass, h1, ih, not_heading_of_status h1, List.any_cons]
    · by_cases h2 : isPrevL l
      · simp [cleanPass, h1, h2, ih, not_heading_of_prev h2, List.any_cons]
      · by_cases h3 : isDateL l
        · by_cases h4 : df <;>
            simp [cleanPass, h1, h2, h3, h4, ih, not_heading_of_date h3,
              List.any_cons]
        · simp [cleanPass, h1, h2, h3, ih, List.any_cons]

theorem insertPass_nohead {ns cs : Str} {ls : List Str}
    (h : ∀ l ∈ ls, isHeadingL l = false) : insertPass ns cs ls = ls := by
  induction ls with
  | nil => rfl
  | cons l rest ih =>
    rw [insertPass, if_neg (by simp [h l (by simp)])]
    rw [ih fun x hx => h x (by simp [hx])]

theorem insertPass_append_nohead {ns cs : Str} {A : List Str}
    (h : ∀ l ∈ A, isHeadingL l = false) (rest : List Str) :
    insertPass ns cs (A ++ rest) = A ++ insertPass ns cs rest := by
  induction A with
  | nil => rfl
  | cons l tl ih =>
    rw [List.cons_append, insertPass, if_neg (by simp [h l (by simp)])]
    rw [ih fun x hx => h x (by simp [hx])]
    simp

theorem insertPass_cons_heading {ns cs h : Str} (hh : isHeadingL h = true)
    (rest : List Str) :
    insertPass ns cs (h :: rest) =
      h :: [] :: statusLine0 ns :: prevLine0 cs :: insertPass ns cs rest := by
  rw [insertPass, if_pos hh]

theorem mem_insertPass {ns cs : Str} {ls : List Str} {l : Str}
    (h : l ∈ insertPass ns cs ls) :
    l ∈ ls ∨ l = [] ∨ l = statusLine0 ns ∨ l = prevLine0 cs := by
  induction ls with
  | nil => simp [insertPass] at h
  | cons x rest ih =>
    by_cases hx : isHeadingL x
    · rw [insertPass_cons_heading hx] at h
      rcases List.mem_cons.1 h with rfl | h
      · exact Or.inl (by simp)
      · rcases List.mem_cons.1 h with rfl | h
        · exact Or.inr (Or.inl rfl)
        · rcases List.mem_cons.1 h with rfl | h
          · exact Or.inr (Or.inr (Or.inl rfl))
          · rcases List.mem_cons.1 h with rfl | h
            · exact Or.inr (Or.inr (Or.inr rfl))
            · rcases ih h with h | h
              · exact Or.inl (by simp [h])
              · exact Or.inr h
    · rw [insertPass, if_neg (by simp [hx])] at h
      rcases List.mem_cons.1 h with rfl | h
      · exact Or.inl (by simp)
      · rcases ih h with h | h
        · exact Or.inl (by simp [h])
        · exact Or.inr h

theorem insertPass_ne_nil {ns cs l : Str} {ls : List Str} :
    insertPass ns cs (l :: ls) ≠ [] := by
  by_cases hx : isHeadingL l
  · rw [insertPass_cons_heading hx]; simp
  · rw [insertPass, if_neg (by simp [hx])]; simp

/-! ### Newline freedom -/

theorem not_newline_mem_lines {content l : Str} (h : l ∈ linesOfL content) :
    '\n' ∉ l := mem_splitOnChar_not_sep l h

theorem newline_not_mem_goTrimPrefix (p : Str) {s : Str} (h : '\n' ∉ s) :
    '\n' ∉ goTrimPrefix p s := by
  unfold goTrimPrefix
  by_cases hp : hasPrefixL p s
  · rw [if_pos hp]
    exact fun hm => h (List.mem_of_mem_drop hm)
  · rw [if_neg hp]; exact h

theorem newline_not_mem_currentStatus (content : Str) :
    '\n' ∉ getCurrentStatusL content := by
  unfold getCurrentStatusL
  cases hf : (linesOfL content).find? isStatusL with
  | none => simp
  | some line =>
    have hmem : line ∈ linesOfL content := List.mem_of_find?_eq_some hf
    have h1 : '\n' ∉ line := not_newline_mem_lines hmem
    exact fun hm =>
      newline_not_mem_goTrimPrefix statusMarkerL h1 (mem_goTrimSpace hm)

theorem newline_not_mem_marker_pair {v tail : Str} (hv : '\n' ∉ v)
    {m : Str} (hm : '\n' ∉ m) (ht : '\n' ∉ tail) : '\n' ∉ m ++ v ++ tail := by
  intro h
  rcases List.mem_append.1 h with h | h
  · rcases List.mem_append.1 h with h | h
    · exact hm h
    · exact hv h
  · exact ht h

theorem newline_not_mem_statusMarker : '\n' ∉ statusMarkerL := by decide

theorem newline_not_mem_prevMarker : '\n' ∉ prevMarkerL := by decide

theorem newline_not_mem_statusLine2 {ns : Str} (h : '\n' ∉ ns) :
    '\n' ∉ statusLine2 ns := by
  unfold statusLine2
  intro hm
  rcases List.mem_append.1 hm with hm | hm
  · exact newline_not_mem_statusMarker hm
  · rcases List.mem_append.1 hm with hm | hm
    · exact h hm
    · simp at hm

theorem newline_not_mem_prevLine2 {cs : Str} (h : '\n' ∉ cs) :
    '\n' ∉ prevLine2 cs := by
  unfold prevLine2
  intro hm
  rcases List.mem_append.1 hm with hm | hm
  · exact newline_not_mem_prevMarker hm
  · rcases List.mem_append.1 hm with hm | hm
    · exact h hm
    · simp at hm

theorem newline_not_mem_statusLine0 {ns : Str} (h : '\n' ∉ ns) :
    '\n' ∉ statusLine0 ns := by
  unfold statusLine0
  intro hm
  rcases List.mem_append.1 hm with hm | hm
  · exact newline_not_mem_statusMarker hm
  · exact h hm

theorem newline_not_mem_prevLine0 {cs : Str} (h : '\n' ∉ cs) :
    '\n' ∉ prevLine0 cs := by
  unfold prevLine0
  intro hm
  rcases List.mem_append.1 hm with hm | hm
  · exact newline_not_mem_prevMarker hm
  · exact h hm

/-! ### Generic list helpers -/

theorem exists_first_true {p : Str → Bool} :
    ∀ {ls : List Str}, ls.any p = true →
      ∃ A x B, ls = A ++ x :: B ∧ (∀ l ∈ A, p l = false) ∧ p x = true
  | [], h => by simp at h
  | l :: rest, h => by
    by_cases hl : p l
    · exact ⟨[], l, rest, rfl, by simp, hl⟩
    · have hrest : rest.any p = true := by
        rcases List.any_eq_true.1 h with ⟨x, hx, hpx⟩
        rcases List.mem_cons.1 hx with rfl | hx
        · exact absurd hpx hl
        · exact List.any_eq_true.2 ⟨x, hx, hpx⟩
      obtain ⟨A, x, B, hdec, hA, hx⟩ := exists_first_true hrest
      exact ⟨l :: A, x, B, by simp [hdec], by
        intro y hy
        rcases List.mem_cons.1 hy with rfl | hy
        · simpa using hl
        · exact hA y hy, hx⟩

theorem find?_append_first {p : Str → Bool} {A : List Str} {x : Str}
    (B : List Str) (hA : ∀ l ∈ A, p l = false) (hx : p x = true) :
    (A ++ x :: B).find? p = some x := by
  induction A with
  | nil => simpa using List.find?_cons_of_pos B hx
  | cons a tl ih =>
    rw [List.cons_append, List.find?_cons_of_neg _ (by simp [hA a (by simp)])]
    exact ih fun l hl => hA l (by simp [hl])

theorem dropWhile_append_all {p : Char → Bool} {a : Str} (b : Str)
    (h : ∀ c ∈ a, p c = true) :
    (a ++ b).dropWhile p = b.dropWhile p := by
  induction a with
  | nil => rfl
  | cons c rest ih =>
    rw [List.cons_append, List.dropWhile_cons_of_pos (h c (by simp))]
    exact ih fun x hx => h x (by simp [hx])

theorem dropWhile_append_empty {p : Char → Bool} {a : Str} (b : Str)
    (h : a.dropWhile p = []) :
    (a ++ b).dropWhile p = b.dropWhile p := by
  induction a with
  | nil => rfl
  | cons c rest ih =>
    by_cases hc : p c
    · rw [List.dropWhile_cons_of_pos hc] at h
      rw [List.cons_append, List.dropWhile_cons_of_pos hc]
      exact ih h
    · rw [List.dropWhile_cons_of_neg hc] at h
      simp at h

theorem dropWhile_append_ne {p : Char → Bool} {a : Str} (b : Str)
    (h : a.dropWhile p ≠ []) :
    (a ++ b).dropWhile p = a.dropWhile p ++ b := by
  induction a with
  | nil => simp at h
  | cons c rest ih =>
    by_cases hc : p c
    · rw [List.dropWhile_cons_of_pos hc] at h
      rw [List.cons_append, List.dropWhile_cons_of_pos hc,
        List.dropWhile_cons_of_pos hc]
      exact ih h
    · rw [List.cons_append, List.dropWhile_cons_of_neg hc,
        List.dropWhile_cons_of_neg hc]
      simp

theorem goTrimSpace_append_spaces (x : Str) :
    goTrimSpace (x ++ [' ', ' ']) = goTrimSpace x := by
  unfold goTrimSpace
  by_cases he : x.dropWhile isGoSpace = []
  · rw [dropWhile_append_empty _ he, he]
    rfl
  · rw [dropWhile_append_ne _ he]
    rw [show (x.dropWhile isGoSpace ++ [' ', ' ']).reverse =
      [' ', ' '] ++ (x.dropWhile isGoSpace).reverse from by simp]
    rw [dropWhile_append_all _ (by decide)]

/-! ### Master characterizations of `updateStatusL` -/

theorem statusPass_cons_status {ns cs s0 : Str} (hs0 : isStatusL s0 = true)
    (df : Bool) (R : List Str) :
    statusPass ns cs false df (s0 :: R) =
      (statusLine2 ns :: prevLine2 cs :: cleanPass df R, true) := by
  simp [statusPass, hs0, statusPass_true]

/-- Branch 1 of `updateStatus`: the body has a status line.  Writing the
lines as status-free prefix `P`, first status line `s0`, remainder `R`, the
output is the cleaned prefix, the new status/previous-status pair, and the
cleaned remainder. -/
theorem updateStatus_lines_replace (content ns : Str)
    (hne : getCurrentStatusL content ≠ ns) (hnl : '\n' ∉ ns)
    {P : List Str} {s0 : Str} {R : List Str}
    (hdec : linesOfL content = P ++ s0 :: R)
    (hP : ∀ l ∈ P, isStatusL l = false) (hs0 : isStatusL s0 = true) :
    linesOfL (updateStatusL content ns) =
      cleanPass false P ++ statusLine2 ns ::
        prevLine2 (getCurrentStatusL content) :: cleanPass (dfAfter false P) R := by
  have hsp : statusPass ns (getCurrentStatusL content) false false
      (linesOfL content) =
      (cleanPass false P ++ statusLine2 ns ::
        prevLine2 (getCurrentStatusL content) :: cleanPass (dfAfter false P) R,
        true) := by
    rw [hdec, statusPass_front _ _ _ _ _ _ hP, statusPass_cons_status hs0]
  have hjoin : updateStatusL content ns =
      joinSep '\n' (cleanPass false P ++ statusLine2 ns ::
        prevLine2 (getCurrentStatusL content) :: cleanPass (dfAfter false P) R) := by
    simp only [updateStatusL]
    rw [if_neg hne, hsp]
    simp
  rw [hjoin]
  apply split_joinSep (by simp)
  intro l hl
  rcases List.mem_append.1 hl with hl | hl
  · exact not_newline_mem_lines (hdec ▸ List.mem_append_left _
      (mem_cleanPass hl).1)
  · rcases List.mem_cons.1 hl with rfl | hl
    · exact newline_not_mem_statusLine2 hnl
    · rcases List.mem_cons.1 hl with rfl | hl
      · exact newline_not_mem_prevLine2 (newline_not_mem_currentStatus content)
      · exact not_newline_mem_lines (hdec ▸ List.mem_append_right _
          (List.mem_cons_of_mem _ (mem_cleanPass hl).1))

/-- Branch 2 of `updateStatus`: the body has no status line.  The merge
cleans the lines (dropping previous-status lines and duplicate date lines)
and then inserts the new pair after every heading line, or at the very top
when there is no heading line. -/
theorem updateStatus_lines_nostatus (content ns : Str)
    (hne : getCurrentStatusL content ≠ ns) (hnl : '\n' ∉ ns)
    (hns : ∀ l ∈ linesOfL content, isStatusL l = false) :
    linesOfL (updateStatusL content ns) =
      if (linesOfL content).any isHeadingL then
        insertPass ns (getCurrentStatusL content)
          (cleanPass false (linesOfL content))
      else
        statusLine0 ns :: prevLine0 (getCurrentStatusL content) :: [] ::
          cleanPass false (linesOfL content) := by
  have hsp : statusPass ns (getCurrentStatusL content) false false
      (linesOfL content) = (cleanPass false (linesOfL content), false) :=
    statusPass_nostatus _ _ _ _ _ hns
  have hjoin : updateStatusL content ns =
      joinSep '\n'
        (if (cleanPass false (linesOfL content)).any isHeadingL then
          insertPass ns (getCurrentStatusL content)
            (cleanPass false (linesOfL content))
        else
          statusLine0 ns :: prevLine0 (getCurrentStatusL content) :: [] ::
            cleanPass false (linesOfL content)) := by
    simp only [updateStatusL]
    rw [if_neg hne, hsp]
    simp
  rw [cleanPass_any_heading] at hjoin
  rw [hjoin]
  by_cases hany : (linesOfL content).any isHeadingL
  · rw [if_pos hany]
    have hcl : (cleanPass false (linesOfL content)).any isHeadingL := by
      rw [cleanPass_any_heading]; exact hany
    obtain ⟨x, hx, _⟩ := List.any_eq_true.1 hcl
    obtain ⟨c, cs', hcc⟩ := List.exists_cons_of_ne_nil
      (List.ne_nil_of_mem hx)
    apply split_joinSep (hcc ▸ insertPass_ne_nil)
    intro l hl
    rcases mem_insertPass hl with hl | rfl | rfl | rfl
    · exact not_newline_mem_lines (mem_cleanPass hl).1
    · simp
    · exact newline_not_mem_statusLine0 hnl
    · exact newline_not_mem_prevLine0 (newline_not_mem_currentStatus content)
  · rw [if_neg hany]
    apply split_joinSep (by simp)
    intro l hl
    rcases List.mem_cons.1 hl with rfl | hl
    · exact newline_not_mem_statusLine0 hnl
    · rcases List.mem_cons.1 hl with rfl | hl
      · exact newline_not_mem_prevLine0 (newline_not_mem_currentStatus content)
      · rcases List.mem_cons.1 hl with rfl | hl
        · simp
        · exact not_newline_mem_lines (mem_cleanPass hl).1

/-! ### The status value after a merge -/

theorem goTrimPrefix_append (p x : Str) : goTrimPrefix p (p ++ x) = x := by
  unfold goTrimPrefix
  rw [if_pos (hasPrefixL_append_self p x)]
  exact List.drop_left p x

theorem isStatusL_statusLine2 (ns : Str) : isStatusL (statusLine2 ns) = true :=
  isStatusL_status_append _

theorem isStatusL_statusLine0 (ns : Str) : isStatusL (statusLine0 ns) = true :=
  isStatusL_status_append _

theorem isPrevL_prevLine2 (cs : Str) : isPrevL (prevLine2 cs) = true :=
  isPrevL_prev_append _

theorem isPrevL_prevLine0 (cs : Str) : isPrevL (prevLine0 cs) = true :=
  isPrevL_prev_append _

theorem isPrevL_statusLine2 (ns : Str) : isPrevL (statusLine2 ns) = false :=
  isPrevL_status_append _

theorem isPrevL_statusLine0 (ns : Str) : isPrevL (statusLine0 ns) = false :=
  isPrevL_status_append _

theorem isStatusL_prevLine2 (cs : Str) : isStatusL (prevLine2 cs) = false :=
  isStatusL_prev_append _

theorem isStatusL_prevLine0 (cs : Str) : isStatusL (prevLine0 cs) = false :=
  isStatusL_prev_append _

theorem isStatusL_nil : isStatusL [] = false := rfl

theorem isPrevL_nil : isPrevL [] = false := rfl

theorem insertPass_first_heading {ns cs : Str} {A : List Str} {h0 : Str}
    (B : List Str) (hA : ∀ l ∈ A, isHeadingL l = false)
    (hh : isHeadingL h0 = true) :
    insertPass ns cs (A ++ h0 :: B) =
      A ++ h0 :: [] :: statusLine0 ns :: prevLine0 cs :: insertPass ns cs B := by
  rw [insertPass_append_nohead hA, insertPass_cons_heading hh]

/-- After a merge that actually rewrote the status (the requested status
differs from the current one), the current status of the result is the
trimmed requested status. -/
theorem getCurrentStatus_updateStatus (content ns : Str)
    (hne : getCurrentStatusL content ≠ ns) (hnl : '\n' ∉ ns) :
    getCurrentStatusL (updateStatusL content ns) = goTrimSpace ns := by
  by_cases hs : (linesOfL content).any isStatusL
  · obtain ⟨P, s0, R, hdec, hP, hs0⟩ := exists_first_true hs
    have hres := updateStatus_lines_replace content ns hne hnl hdec hP hs0
    unfold getCurrentStatusL
    rw [hres, find?_append_first _ (fun l hl => (mem_cleanPass hl).2.1)
      (isStatusL_statusLine2 ns)]
    show goTrimSpace (goTrimPrefix statusMarkerL (statusLine2 ns)) = goTrimSpace ns
    rw [show goTrimPrefix statusMarkerL (statusLine2 ns) = ns ++ [' ', ' '] from
      goTrimPrefix_append ..]
    exact goTrimSpace_append_spaces ns
  · have hns : ∀ l ∈ linesOfL content, isStatusL l = false := by
      intro l hl
      by_contra hcon
      exact hs (List.any_eq_true.2 ⟨l, hl, by simpa using hcon⟩)
    have hres := updateStatus_lines_nostatus content ns hne hnl hns
    by_cases hany : (linesOfL content).any isHeadingL
    · rw [if_pos hany] at hres
      have hcl : (cleanPass false (linesOfL content)).any isHeadingL := by
        rw [cleanPass_any_heading]; exact hany
      obtain ⟨A, h0, B, hdec2, hA, hh⟩ := exists_first_true hcl
      rw [hdec2, insertPass_first_heading B hA hh] at hres
      unfold getCurrentStatusL
      rw [hres]
      rw [show A ++ h0 :: [] :: statusLine0 ns ::
          prevLine0 (getCurrentStatusL content) ::
            insertPass ns (getCurrentStatusL content) B =
        (A ++ [h0, []]) ++ statusLine0 ns ::
          (prevLine0 (getCurrentStatusL content) ::
            insertPass ns (getCurrentStatusL content) B) from by simp]
      rw [find?_append_first _ ?hA2 (isStatusL_statusLine0 ns)]
      · show goTrimSpace (goTrimPrefix statusMarkerL (statusLine0 ns)) = goTrimSpace ns
        rw [show goTrimPrefix statusMarkerL (statusLine0 ns) = ns from
          goTrimPrefix_append ..]
      case hA2 =>
        intro l hl
        rcases List.mem_append.1 hl with hl | hl
        · exact (mem_cleanPass (hdec2 ▸ List.mem_append_left _ hl)).2.1
        · rcases List.mem_cons.1 hl with rfl | hl
          · exact not_status_of_heading hh
          · rcases List.mem_cons.1 hl with rfl | hl
            · exact isStatusL_nil
            · simp at hl
    · rw [if_neg hany] at hres
      unfold getCurrentStatusL
      rw [hres, List.find?_cons_of_pos _ (isStatusL_statusLine0 ns)]
      show goTrimSpace (goTrimPrefix statusMarkerL (statusLine0 ns)) = goTrimSpace ns
      rw [show goTrimPrefix statusMarkerL (statusLine0 ns) = ns from
        goTrimPrefix_append ..]

/-- The no-op guard of `updateStatus`. -/
theorem updateStatus_noop {content ns : Str}
    (h : getCurrentStatusL content = ns) : updateStatusL content ns = content := by
  simp only [updateStatusL]
  rw [if_pos h]

/-! ## Claim C2 -/

/-- C2 (amended): when the requested status differs from the current one
and contains no newline, the merge behaves as follows.  (1) If a status
line exists — lines decomposed as status-free prefix `P`, first status line
`s0`, remainder `R` — the output is the cleaned prefix followed by exactly
one status line bearing the new value, immediately followed by exactly one
previous-status line bearing the old value, at the position of the first
removed status line, followed by the cleaned remainder; all status-field
and previous-status-field lines of the body are removed.  (2) If no status
line exists, the pair (preceded by a blank line) is inserted after each
heading line: after the heading when the body has a single heading line,
(3) or at the very top (followed by a blank line) when there is no heading
line. -/
theorem updateStatus_merge_characterization (content ns : Str)
    (hne : getCurrentStatusL content ≠ ns) (hnl : '\n' ∉ ns) :
    (∀ P s0 R, linesOfL content = P ++ s0 :: R →
      (∀ l ∈ P, isStatusL l = false) → isStatusL s0 = true →
      linesOfL (updateStatusL content ns) =
        cleanPass false P ++ statusLine2 ns ::
          prevLine2 (getCurrentStatusL content) :: cleanPass (dfAfter false P) R ∧
      (linesOfL (updateStatusL content ns)).countP isStatusL = 1 ∧
      (linesOfL (updateStatusL content ns)).countP isPrevL = 1) ∧
    ((∀ l ∈ linesOfL content, isStatusL l = false) →
      ∀ A h0 B, cleanPass false (linesOfL content) = A ++ h0 :: B →
        (∀ l ∈ A, isHeadingL l = false) → isHeadingL h0 = true →
        (∀ l ∈ B, isHeadingL l = false) →
        linesOfL (updateStatusL content ns) =
          A ++ h0 :: [] :: statusLine0 ns ::
            prevLine0 (getCurrentStatusL content) :: B) ∧
    ((∀ l ∈ linesOfL content, isStatusL l = false) →
      (∀ l ∈ linesOfL content, isHeadingL l = false) →
      linesOfL (updateStatusL content ns) =
        statusLine0 ns :: prevLine0 (getCurrentStatusL content) :: [] ::
          cleanPass false (linesOfL content)) := by
  refine ⟨?_, ?_, ?_⟩
  · intro P s0 R hdec hP hs0
    have hres := updateStatus_lines_replace content ns hne hnl hdec hP hs0
    refine ⟨hres, ?_, ?_⟩
    · rw [hres]
      have hA0 : (cleanPass false P).countP isStatusL = 0 :=
        List.countP_eq_zero.2 fun l hl => by simp [(mem_cleanPass hl).2.1]
      have hR0 : (cleanPass (dfAfter false P) R).countP isStatusL = 0 :=
        List.countP_eq_zero.2 fun l hl => by simp [(mem_cleanPass hl).2.1]
      simp [List.countP_append, List.countP_cons, hA0, hR0,
        isStatusL_statusLine2, isStatusL_prevLine2]
    · rw [hres]
      have hA0 : (cleanPass false P).countP isPrevL = 0 :=
        List.countP_eq_zero.2 fun l hl => by simp [(mem_cleanPass hl).2.2]
      have hR0 : (cleanPass (dfAfter false P) R).countP isPrevL = 0 :=
        List.countP_eq_zero.2 fun l hl => by simp [(mem_cleanPass hl).2.2]
      simp [List.countP_append, List.countP_cons, hA0, hR0,
        isPrevL_statusLine2, isPrevL_prevLine2]
  · intro hns A h0 B hdec2 hA hh hB
    have hres := updateStatus_lines_nostatus content ns hne hnl hns
    have hany : (linesOfL content).any isHeadingL := by
      rw [← cleanPass_any_heading false, hdec2]
      exact List.any_eq_true.2 ⟨h0, by simp, hh⟩
    rw [if_pos hany] at hres
    rw [hdec2, insertPass_first_heading B hA hh, insertPass_nohead hB] at hres
    exact hres
  · intro hns hnh
    have hres := updateStatus_lines_nostatus content ns hne hnl hns
    have hany : (linesOfL content).any isHeadingL = false := by
      rw [List.any_eq_false]
      intro l hl
      simp [hnh l hl]
    rw [hany] at hres
    simpa using hres

/-- Counterexample to C2 as stated: in a body with two heading lines and no
status line, the merge inserts the status pair after each heading, so the
result does not contain exactly one status line. -/
theorem updateStatus_two_headings_counterexample :
    ¬ ((linesOfL (updateStatusL "# ADR 1: A\nx\n# ADR 2: B".data
      "Accepted".data)).countP isStatusL = 1) := by decide

/-- Witness for C2: the characterization applied to a concrete body whose
status line changes from `Old` to `New`. -/
theorem updateStatus_merge_characterization_witness :
    (linesOfL (updateStatusL "# ADR 7: T\n**Status**: Old\n**Previous Status**: X\nbody".data
      "New".data)).countP isStatusL = 1 ∧
    (linesOfL (updateStatusL "# ADR 7: T\n**Status**: Old\n**Previous Status**: X\nbody".data
      "New".data)).countP isPrevL = 1 := by
  have h := ((updateStatus_merge_characterization
    "# ADR 7: T\n**Status**: Old\n**Previous Status**: X\nbody".data "New".data
    (by decide) (by decide)).1 ["# ADR 7: T".data] "**Status**: Old".data
    ["**Previous Status**: X".data, "body".data] (by decide) (by decide)
    (by decide))
  exact ⟨h.2.1, h.2.2⟩

/-! ## Claim C3 -/

/-- C3 (amended): re-applying the same status is a pure no-op (when the new
status equals the current status exactly the body is returned unchanged),
and for any requested status that is newline-free and stable under white
space trimming, applying the merge twice in a row yields byte-identical
output to applying it once. -/
theorem updateStatus_noop_idempotent (content ns : Str) :
    (getCurrentStatusL content = ns → updateStatusL content ns = content) ∧
    (goTrimSpace ns = ns → '\n' ∉ ns →
      updateStatusL (updateStatusL content ns) ns = updateStatusL content ns) := by
  refine ⟨fun h => updateStatus_noop h, fun hts hnl => ?_⟩
  by_cases h : getCurrentStatusL content = ns
  · rw [updateStatus_noop h]
    exact updateStatus_noop h
  · exact updateStatus_noop (by rw [getCurrentStatus_updateStatus content ns h hnl, hts])

/-- Counterexample to C3 as stated: for a status value with a trailing
space, applying the merge twice differs from applying it once (the second
application rewrites the previous-status line again). -/
theorem updateStatus_not_idempotent_counterexample :
    updateStatusL (updateStatusL "**Status**: A".data "X ".data) "X ".data ≠
      updateStatusL "**Status**: A".data "X ".data := by decide

/-- Witness for C3: no-op on an equal status and idempotence on a concrete
trim-stable status. -/
theorem updateStatus_noop_idempotent_witness :
    updateStatusL "**Status**: A".data "A".data = "**Status**: A".data ∧
    updateStatusL (updateStatusL "# ADR 1: T\nbody".data "Accepted".data)
      "Accepted".data =
      updateStatusL "# ADR 1: T\nbody".data "Accepted".data :=
  ⟨(updateStatus_noop_idempotent "**Status**: A".data "A".data).1 (by decide),
    (updateStatus_noop_idempotent "# ADR 1: T\nbody".data "Accepted".data).2
      (by decide) (by decide)⟩

/-! ## Claim C4 -/

theorem keepL_statusLine2 (ns : Str) : keepL (statusLine2 ns) = false := by
  simp [keepL, isStatusL_statusLine2]

theorem keepL_prevLine2 (cs : Str) : keepL (prevLine2 cs) = false := by
  simp [keepL, isPrevL_prevLine2]

theorem take_one_append_left {a : List Str} (b : List Str) (h : a ≠ []) :
    (a ++ b).take 1 = a.take 1 := by
  cases a with
  | nil => simp at h
  | cons x xs => rfl

/-- C4 (amended): when the body contains a status line and the requested
status differs from the current one (and has no newline), the merge
preserves every line that is neither a status-field, previous-status-field,
nor date-field line, unmodified and in its original relative order; of the
date-field lines exactly the first is kept (later duplicates are dropped). -/
theorem updateStatus_frame (content ns : Str)
    (hs : (linesOfL content).any isStatusL = true)
    (hne : getCurrentStatusL content ≠ ns) (hnl : '\n' ∉ ns) :
    (linesOfL (updateStatusL content ns)).filter keepL =
      (linesOfL content).filter keepL ∧
    (linesOfL (updateStatusL content ns)).filter isDateL =
      ((linesOfL content).filter isDateL).take 1 := by
  obtain ⟨P, s0, R, hdec, hP, hs0⟩ := exists_first_true hs
  have hres := updateStatus_lines_replace content ns hne hnl hdec hP hs0
  have hs0d : isDateL s0 = false := not_date_of_status hs0
  have hs0k : keepL s0 = false := by simp [keepL, hs0]
  constructor
  · rw [hres, hdec]
    simp [List.filter_append, List.filter_cons, keepL_statusLine2,
      keepL_prevLine2, hs0k, cleanPass_filter_keep]
  · rw [hres, hdec]
    have hd2 : isDateL (statusLine2 ns) = false := isDateL_status_append _
    have hd3 : isDateL (prevLine2 (getCurrentStatusL content)) = false :=
      isDateL_prev_append _
    have hsplit : (P ++ s0 :: R).filter isDateL =
        P.filter isDateL ++ R.filter isDateL := by
      simp [List.filter_append, List.filter_cons, hs0d]
    have hmain : (cleanPass false P ++ statusLine2 ns ::
        prevLine2 (getCurrentStatusL content) ::
          cleanPass (dfAfter false P) R).filter isDateL =
        (P.filter isDateL).take 1 ++
          (if dfAfter false P = true then [] else (R.filter isDateL).take 1) := by
      simp [List.filter_append, List.filter_cons, hd2, hd3, cleanPass_filter_date]
    rw [hsplit, hmain]
    by_cases hPd : P.any isDateL
    · have hne2 : P.filter isDateL ≠ [] := by
        obtain ⟨x, hx, hpx⟩ := List.any_eq_true.1 hPd
        exact List.ne_nil_of_mem (List.mem_filter.2 ⟨hx, hpx⟩)
      rw [show dfAfter false P = true by simp [dfAfter, hPd]]
      rw [take_one_append_left _ hne2]
      simp
    · have hfe : P.filter isDateL = [] := by
        rw [List.filter_eq_nil_iff]
        intro a ha
        have := List.any_eq_false.1 (by simpa using hPd) a ha
        simp [this]
      rw [show dfAfter false P = false by
        simpa [dfAfter] using List.any_eq_false.1 (by simpa using hPd)]
      rw [hfe]
      simp

/-- Counterexample to C4 as stated: the second date line is neither a
status-field nor a previous-status-field line, yet the merge drops it. -/
theorem updateStatus_drops_duplicate_date :
    "**Date**: 2".data ∈ linesOfL "**Status**: A\n**Date**: 1\n**Date**: 2".data ∧
    "**Date**: 2".data ∉
      linesOfL (updateStatusL "**Status**: A\n**Date**: 1\n**Date**: 2".data
        "B".data) := by decide

/-- Witness for C4: the frame property applied to a concrete body with a
duplicate date line. -/
theorem updateStatus_frame_witness :
    (linesOfL (updateStatusL "**Status**: A\n**Date**: 1\nbody\n**Date**: 2".data
      "B".data)).filter keepL =
      (linesOfL "**Status**: A\n**Date**: 1\nbody\n**Date**: 2".data).filter keepL ∧
    (linesOfL (updateStatusL "**Status**: A\n**Date**: 1\nbody\n**Date**: 2".data
      "B".data)).filter isDateL = ["**Date**: 1".data] := by
  have h := updateStatus_frame "**Status**: A\n**Date**: 1\nbody\n**Date**: 2".data
    "B".data (by decide) (by decide) (by decide)
  exact ⟨h.1, h.2.trans (by decide)⟩

/-! ## Claim C9 -/

theorem prevLine0_mem_insertPass {ns cs : Str} {ls : List Str}
    (h : ls.any isHeadingL = true) : prevLine0 cs ∈ insertPass ns cs ls := by
  induction ls with
  | nil => simp at h
  | cons l rest ih =>
    by_cases hl : isHeadingL l
    · rw [insertPass_cons_heading hl]
      simp
    · rw [insertPass, if_neg (by simp [hl])]
      have : rest.any isHeadingL = true := by
        rcases List.any_eq_true.1 h with ⟨x, hx, hpx⟩
        rcases List.mem_cons.1 hx with rfl | hx
        · exact absurd hpx (by simp [hl])
        · exact List.any_eq_true.2 ⟨x, hx, hpx⟩
      exact List.mem_cons_of_mem _ (ih this)

/-- C9 (amended): when the requested status equals the current one the body
is returned unchanged; when it differs (and has no newline) the output
contains at least one previous-status line, and every previous-status line
of the output bears the prior status value — which is empty when the body
had no status line or an empty status value. -/
theorem updateStatus_prev_line_spec (content ns : Str) (hnl : '\n' ∉ ns) :
    (getCurrentStatusL content = ns → updateStatusL content ns = content) ∧
    (getCurrentStatusL content ≠ ns →
      1 ≤ (linesOfL (updateStatusL content ns)).countP isPrevL ∧
      ∀ l ∈ linesOfL (updateStatusL content ns), isPrevL l = true →
        l = prevLine2 (getCurrentStatusL content) ∨
        l = prevLine0 (getCurrentStatusL content)) := by
  refine ⟨fun h => updateStatus_noop h, fun hne => ?_⟩
  by_cases hs : (linesOfL content).any isStatusL
  · obtain ⟨P, s0, R, hdec, hP, hs0⟩ := exists_first_true hs
    have hres := updateStatus_lines_replace content ns hne hnl hdec hP hs0
    constructor
    · rw [hres]
      exact List.countP_pos_iff.2 ⟨prevLine2 (getCurrentStatusL content),
        by simp, by simp [isPrevL_prevLine2]⟩
    · intro l hl hp
      rw [hres] at hl
      rcases List.mem_append.1 hl with hl | hl
      · exact absurd hp (by simp [(mem_cleanPass hl).2.2])
      · rcases List.mem_cons.1 hl with rfl | hl
        · exact absurd hp (by simp [isPrevL_statusLine2])
        · rcases List.mem_cons.1 hl with rfl | hl
          · exact Or.inl rfl
          · exact absurd hp (by simp [(mem_cleanPass hl).2.2])
  · have hns : ∀ l ∈ linesOfL content, isStatusL l = false := by
      intro l hl
      by_contra hcon
      exact hs (List.any_eq_true.2 ⟨l, hl, by simpa using hcon⟩)
    have hres := updateStatus_lines_nostatus content ns hne hnl hns
    by_cases hany : (linesOfL content).any isHeadingL
    · rw [if_pos hany] at hres
      have hcl : (cleanPass false (linesOfL content)).any isHeadingL := by
        rw [cleanPass_any_heading]; exact hany
      constructor
      · rw [hres]
        exact List.countP_pos_iff.2 ⟨prevLine0 (getCurrentStatusL content),
          prevLine0_mem_insertPass hcl, by simp [isPrevL_prevLine0]⟩
      · intro l hl hp
        rw [hres] at hl
        rcases mem_insertPass hl with hl | rfl | rfl | rfl
        · exact absurd hp (by simp [(mem_cleanPass hl).2.2])
        · exact absurd hp (by simp [isPrevL_nil])
        · exact absurd hp (by simp [isPrevL_statusLine0])
        · exact Or.inr rfl
    · rw [if_neg hany] at hres
      constructor
      · rw [hres]
        simp [List.countP_cons, isPrevL_prevLine0, isPrevL_nil,
          isPrevL_statusLine0]
      · intro l hl hp
        rw [hres] at hl
        rcases List.mem_cons.1 hl with rfl | hl
        · exact absurd hp (by simp [isPrevL_statusLine0])
        · rcases List.mem_cons.1 hl with rfl | hl
          · exact Or.inr rfl
          · rcases List.mem_cons.1 hl with rfl | hl
            · exact absurd hp (by simp [isPrevL_nil])
            · exact absurd hp (by simp [(mem_cleanPass hl).2.2])

/-- Counterexample to C9 as stated: merging a status into a body with no
status line at all still produces a previous-status line (with an empty
value). -/
theorem updateStatus_prev_from_empty_counterexample :
    "**Previous Status**: ".data ∈
      linesOfL (updateStatusL "# ADR 1: T".data "Accepted".data) := by decide

/-- Witness for C9: at least one previous-status line after a real status
change. -/
theorem updateStatus_prev_line_spec_witness :
    1 ≤ (linesOfL (updateStatusL "**Status**: Accepted".data
      "Superseded".data)).countP isPrevL :=
  ((updateStatus_prev_line_spec "**Status**: Accepted".data "Superseded".data
    (by decide)).2 (by decide)).1

/-! ## Record store scanner, index builder, numbering (`main.go`) -/

/-- One entry of the store directory listing (`os.ReadDir` result): a name
and whether it is a subdirectory.  A listing of `none` models a directory
that cannot be read. -/
structure DirEntry where
  name : Str
  isDir : Bool
deriving DecidableEq

/-- The reserved index filename `README.md`. -/
def indexFileL : Str := "README.md".data

/-- The reserved template filename `template.md`. -/
def templateFileL : Str := "template.md".data

/-- The record extension `.md`. -/
def mdExtL : Str := ".md".data

/-- The record filename prefix `adr-`. -/
def adrPrefixL : Str := "adr-".data

/-- The fixed heading of the generated index file, byte for byte as it
appears in `main.go` (the emoji is stored double-encoded there). -/
def indexHeaderL : Str :=
  "# ðŸ“„ Architecture Decision Records\n\n".data

/-- The entry filter shared by `updateIndex` and `getNextADRNumber`:
skip subdirectories, non-`.md` entries and the two reserved files. -/
def isRecordEntry (f : DirEntry) : Bool :=
  !(f.isDir || !hasSuffixL mdExtL f.name || f.name == indexFileL ||
    f.name == templateFileL)

/-- The record filenames of a listing, in listing order
(the collection loop of `updateIndex`). -/
def recordNames (files : List DirEntry) : List Str :=
  (files.filter isRecordEntry).map DirEntry.name

/-- Go byte-wise lexicographic string comparison (`s1 <= s2`), the order
used by `sort.Strings`; on UTF-8 text, byte order and code-point order
agree. -/
def lexLe : Str → Str → Bool
  | [], _ => true
  | _ :: _, [] => false
  | a :: as, b :: bs => if a < b then true else if b < a then false else lexLe as bs

/-- `lexLe` as a relation. -/
def strLe (a b : Str) : Prop := lexLe a b = true

instance : DecidableRel strLe := fun a b =>
  inferInstanceAs (Decidable (lexLe a b = true))

/-- `sort.Strings`: sorts ascending by `lexLe`.  Modelled by insertion
sort; by antisymmetry and totality of the order the sorted result is the
same for any comparison sort. -/
def sortStrings (ls : List Str) : List Str := List.insertionSort strLe ls

/-- Word-wise title casing as performed by the `cases.Title` caser of the
`golang.org/x/text` library for English on the ASCII words that record
slugs produce: the first character of each alphanumeric run is upper-cased
(digits are unchanged), the rest of the run is lower-cased, and every
other character passes through and ends the current run. -/
def goTitleAux : Bool → Str → Str
  | _, [] => []
  | inWord, c :: rest =>
    if c.isAlpha || c.isDigit then
      (if inWord then c.toLower else c.toUpper) :: goTitleAux true rest
    else c :: goTitleAux false rest

/-- `cases.Title(language.English).String`, see `goTitleAux`. -/
def goTitleEnglish (s : Str) : Str := goTitleAux false s

/-- `extractTitleFromFilename` from `main.go`: trim the `.md` suffix, split
at the first hyphen; if there is no hyphen return the filename unchanged,
otherwise title-case the remainder with hyphens replaced by spaces and
restore the upper-case spelling of `ADR `. -/
def extractTitleFromFilenameL (filename : Str) : Str :=
  let name := goTrimSuffix mdExtL filename
  match splitFirst '-' name with
  | [_, rest] =>
    replaceAllL "Adr ".data "ADR ".data
      (goTitleEnglish (replaceAllL "-".data " ".data rest))
  | _ => filename

/-- One generated index list entry (`fmt.Sprintf("- [%s](%s)\n", ...)`). -/
def indexEntryLine (name : Str) : Str :=
  "- [".data ++ extractTitleFromFilenameL name ++ "](".data ++ name ++ ")\n".data

/-- The full content written by `updateIndex`, as a function of the
directory listing: the fixed heading followed by one entry per record
filename in sorted order.  `updateIndex` always writes this whole string,
overwriting the previous index. -/
def updateIndexContent (files : List DirEntry) : Str :=
  indexHeaderL ++ List.flatten ((sortStrings (recordNames files)).map indexEntryLine)

/-- The numeric value of a non-empty all-digit string. -/
def digitsVal (s : Str) : Option Nat :=
  if s = [] then none
  else if s.all Char.isDigit then
    some (s.foldl (fun n c => n * 10 + (c.toNat - 48)) 0)
  else none

/-- `strconv.Atoi` on a 64-bit platform: an optional sign followed by
decimal digits; fails on an empty digit string, on any other character and
on values outside the `int64` range. -/
def goAtoi (s : Str) : Option Int :=
  match s with
  | '+' :: rest =>
    (digitsVal rest).bind fun n =>
      if n ≤ 9223372036854775807 then some (n : Int) else none
  | '-' :: rest =>
    (digitsVal rest).bind fun n =>
      if n ≤ 9223372036854775808 then some (-(n : Int)) else none
  | _ =>
    (digitsVal s).bind fun n =>
      if n ≤ 9223372036854775807 then some (n : Int) else none

/-- `fmt.Sprintf("%03d", n)`: decimal representation padded with zeros to
a total width of three (the sign, when present, counts towards the
width). -/
def sprintf03 (n : Int) : Str :=
  if n < 0 then
    '-' :: (List.replicate (2 - (Nat.repr (-n).toNat).data.length) '0' ++
      (Nat.repr (-n).toNat).data)
  else
    List.replicate (3 - (Nat.repr n.toNat).data.length) '0' ++
      (Nat.repr n.toNat).data

/-- The per-entry parse step of the `getNextADRNumber` loop: `none` when
the entry is skipped (subdirectory, wrong extension, reserved name, no
`adr-` prefix, or an unparsable number segment), otherwise the parsed
value of the segment between `adr-` and the next hyphen. -/
def adrNumOf (f : DirEntry) : Option Int :=
  if f.isDir || !hasSuffixL mdExtL f.name || f.name == indexFileL ||
      f.name == templateFileL then none
  else if hasPrefixL adrPrefixL f.name then
    goAtoi ((splitOnChar '-' (goTrimPrefix adrPrefixL f.name)).headD [])
  else none

/-- `getNextADRNumber` from `main.go`: `001` when the directory cannot be
read, otherwise the maximum parsed record number (starting from 0) plus
one, zero-padded to three digits. -/
def getNextADRNumberL (files : Option (List DirEntry)) : Str :=
  match files with
  | none => "001".data
  | some fs =>
    let maxNum := fs.foldl
      (fun maxNum f =>
        match adrNumOf f with
        | some num => if num > maxNum then num else maxNum
        | none => maxNum)
      (0 : Int)
    sprintf03 (maxNum + 1)

/-! ## Template renderer and creation paths (both front ends) -/

/-- The number placeholder token. -/
def phNumberL : Str := "\x7b\x7bnumber\x7d\x7d".data

/-- The status placeholder token. -/
def phStatusL : Str := "\x7b\x7bstatus\x7d\x7d".data

/-- The title placeholder token. -/
def phTitleL : Str := "\x7b\x7btitle\x7d\x7d".data

/-- The date placeholder token. -/
def phDateL : Str := "\x7b\x7bdate\x7d\x7d".data

theorem hasPrefixL_length_le {p l : Str} (h : hasPrefixL p l = true) :
    p.length ≤ l.length := by
  obtain ⟨t, rfl⟩ := hasPrefixL_eq_append h
  simp

/-- `renderTemplate`: the `strings.NewReplacer(...).Replace` scan.  The
input is scanned once, left to right; at each position the first matching
placeholder token (in declaration order: number, status, title, date) is
replaced by its value and scanning resumes after the replacement, so a
substituted value is never itself re-scanned. -/
def renderTemplateL (number status title date : Str) (tpl : Str) : Str :=
  if h1 : hasPrefixL phNumberL tpl then
    number ++ renderTemplateL number status title date (tpl.drop phNumberL.length)
  else if h2 : hasPrefixL phStatusL tpl then
    status ++ renderTemplateL number status title date (tpl.drop phStatusL.length)
  else if h3 : hasPrefixL phTitleL tpl then
    title ++ renderTemplateL number status title date (tpl.drop phTitleL.length)
  else if h4 : hasPrefixL phDateL tpl then
    date ++ renderTemplateL number status title date (tpl.drop phDateL.length)
  else
    match tpl with
    | [] => []
    | c :: rest => c :: renderTemplateL number status title date rest
termination_by tpl.length
decreasing_by
  · have := hasPrefixL_length_le h1
    simp [phNumberL] at this ⊢
    omega
  · have := hasPrefixL_length_le h2
    simp [phStatusL] at this ⊢
    omega
  · have := hasPrefixL_length_le h3
    simp [phTitleL] at this ⊢
    omega
  · have := hasPrefixL_length_le h4
    simp [phDateL] at this ⊢
    omega
  · simp

/-- `toKebabCase`: lower-case, then map spaces and underscores to
hyphens. -/
def toKebabCaseL (s : Str) : Str :=
  replaceAllL "_".data "-".data (replaceAllL " ".data "-".data (goToLower s))

/-- The filename computed by the interactive front end when creating a new
record (`fmt.Sprintf("adr-%s-%s.md", number, kebabTitle)` in `main.go`). -/
def interactiveCreateFilename (number title : Str) : Str :=
  adrPrefixL ++ number ++ "-".data ++ toKebabCaseL title ++ mdExtL

/-- The content computed by the interactive front end when creating a new
record (`renderTemplate(template, number, status, title, date)`). -/
def interactiveCreateContent (template number status title date : Str) : Str :=
  renderTemplateL number status title date template

/-- The filename computed by the flag-based front end when creating a new
record — the same formula as the interactive one, from the unnamed
source file. -/
def flagCreateFilename (number title : Str) : Str :=
  adrPrefixL ++ number ++ "-".data ++ toKebabCaseL title ++ mdExtL

/-- The content computed by the flag-based front end when creating a new
record. -/
def flagCreateContent (template number status title date : Str) : Str :=
  renderTemplateL number status title date template

/-- The status rewrite of the flag-based front end's update branch:
`strings.ReplaceAll(content, "**Status**: ",
fmt.Sprintf("**Status**: %s\n**Previous Status**: ", status))`. -/
def flagUpdateStatusL (content status : Str) : Str :=
  replaceAllL statusMarkerL
    (statusMarkerL ++ status ++ '\n' :: prevMarkerL) content

/-! ## Lemmas about `replaceAllL`, `splitFirst` and `goTitleEnglish` -/

theorem replaceAllAux_fuel_irrel (p r : Str) :
    ∀ (f1 : Nat) (t : Str) (f2 : Nat), t.length ≤ f1 → t.length ≤ f2 →
      replaceAllAux p r f1 t = replaceAllAux p r f2 t := by
  intro f1
  induction f1 with
  | zero =>
    intro t f2 h1 _
    have ht : t = [] := List.eq_nil_of_length_eq_zero (Nat.le_zero.1 h1)
    subst ht
    cases f2 <;> rfl
  | succ f ih =>
    intro t f2 h1 h2
    cases t with
    | nil => cases f2 <;> rfl
    | cons c rest =>
      cases f2 with
      | zero => simp at h2
      | succ g =>
        simp only [replaceAllAux]
        simp only [List.length_cons, Nat.add_le_add_iff_right] at h1 h2
        by_cases hp : hasPrefixL p (c :: rest)
        · rw [if_pos hp, if_pos hp]
          congr 1
          apply ih
          · simp only [List.length_drop]
            omega
          · simp only [List.length_drop]
            omega
        · rw [if_neg hp, if_neg hp]
          congr 1
          exact ih rest g h1 h2

theorem replaceAllL_cons_no_match {ph : Char} {pt r : Str} {c : Char}
    {rest : Str} (h : c ≠ ph) :
    replaceAllL (ph :: pt) r (c :: rest) = c :: replaceAllL (ph :: pt) r rest := by
  have hpre : hasPrefixL (ph :: pt) (c :: rest) = false := by
    simp only [hasPrefixL, Bool.and_eq_false_iff]
    left
    simp [beq_eq_false_iff_ne]
    exact fun he => h he.symm
  show replaceAllAux (ph :: pt) r (rest.length + 1) (c :: rest) = _
  simp only [replaceAllAux, hpre]
  rfl

theorem replaceAllL_skip_front {ph : Char} {pt r : Str} {pre : Str}
    (h : ∀ c ∈ pre, c ≠ ph) (t : Str) :
    replaceAllL (ph :: pt) r (pre ++ t) = pre ++ replaceAllL (ph :: pt) r t := by
  induction pre with
  | nil => simp
  | cons c rest ih =>
    rw [List.cons_append, replaceAllL_cons_no_match (h c (by simp)),
      ih fun x hx => h x (by simp [hx])]
    simp

theorem replaceAllL_single {a b : Char} (t : Str) :
    replaceAllL [a] [b] t = t.map (fun c => if c = a then b else c) := by
  induction t with
  | nil => rfl
  | cons c rest ih =>
    by_cases hc : c = a
    · subst hc
      have hpre : hasPrefixL [c] (c :: rest) = true := by simp [hasPrefixL]
      show replaceAllAux [c] [b] (rest.length + 1) (c :: rest) = _
      simp only [replaceAllAux, hpre, if_pos]
      simp only [List.length_cons, List.length_singleton, Nat.sub_self,
        List.drop_zero, List.map_cons, if_pos rfl]
      show b :: replaceAllL [c] [b] rest = _
      rw [ih]
      simp
    · rw [replaceAllL_cons_no_match hc, ih]
      simp [hc]

theorem splitFirst_not_mem {sep : Char} {l : Str} (h : sep ∉ l) :
    splitFirst sep l = [l] := by
  induction l with
  | nil => rfl
  | cons c rest ih =>
    have hc : c ≠ sep := fun he => h (he ▸ List.mem_cons_self c rest)
    have hrest : sep ∉ rest := fun hm => h (List.mem_cons_of_mem c hm)
    simp [splitFirst, hc, ih hrest, List.modifyHead]

theorem char_isDigit_toNat {c : Char} (h : c.isDigit = true) :
    48 ≤ c.toNat ∧ c.toNat ≤ 57 := by
  simp only [Char.isDigit, Bool.and_eq_true, decide_eq_true_eq] at h
  exact ⟨h.1, h.2⟩

theorem digit_toUpper {c : Char} (h : c.isDigit = true) : c.toUpper = c := by
  have hv := char_isDigit_toNat h
  simp only [Char.toUpper]
  rw [if_neg (by omega)]

theorem digit_toLower {c : Char} (h : c.isDigit = true) : c.toLower = c := by
  have hv := char_isDigit_toNat h
  simp only [Char.toLower]
  rw [if_neg (by omega)]

theorem digit_ne_hyphen {c : Char} (h : c.isDigit = true) : c ≠ '-' := by
  intro he
  subst he
  exact absurd h (by decide)

theorem digit_ne_A {c : Char} (h : c.isDigit = true) : c ≠ 'A' := by
  intro he
  subst he
  exact absurd h (by decide)

theorem digit_alnum {c : Char} (h : c.isDigit = true) :
    (c.isAlpha || c.isDigit) = true := by simp [h]

theorem goTitleAux_digits_space {n : Str} (hd : ∀ c ∈ n, c.isDigit = true) :
    ∀ (b : Bool) (t : Str),
      goTitleAux b (n ++ ' ' :: t) = n ++ ' ' :: goTitleAux false t := by
  induction n with
  | nil =>
    intro b t
    simp [goTitleAux]
  | cons c rest ih =>
    intro b t
    have hc := hd c (by simp)
    rw [List.cons_append, goTitleAux, if_pos (by simp [digit_alnum hc])]
    rw [ih (fun x hx => hd x (by simp [hx])) true t]
    cases b with
    | false => simp [digit_toUpper hc]
    | true => simp [digit_toLower hc]

/-! ## Claim C5 -/

theorem adrNumOf_step_none {f : DirEntry} (h : adrNumOf f = none) (acc : Int) :
    (match adrNumOf f with
      | some num => if num > acc then num else acc
      | none => acc) = acc := by
  rw [h]

theorem getNextADRNumber_fold (fs : List DirEntry) :
    ∀ acc : Int,
      fs.foldl
        (fun maxNum f =>
          match adrNumOf f with
          | some num => if num > maxNum then num else maxNum
          | none => maxNum) acc =
      (fs.filterMap adrNumOf).foldl max acc := by
  induction fs with
  | nil => intro acc; rfl
  | cons f rest ih =>
    intro acc
    rw [List.foldl_cons, List.filterMap_cons]
    cases hf : adrNumOf f with
    | none => rw [ih]
    | some n =>
      rw [List.foldl_cons, ih]
      congr 1
      show (if n > acc then n else acc) = acc ⊔ n
      split <;> omega

/-- C5: `getNextADRNumber` parses each record filename with the per-entry
step `adrNumOf` (the leading numeric segment after the fixed `adr-`
prefix); unparsable or malformed names are silently skipped (removing such
an entry does not change the result); the returned value is the maximum
successfully parsed value (at least 0) plus one, zero-padded to three
digits; an unreadable directory or an empty store yields `001`; gaps are
not filled: with `adr-001-a.md` and `adr-003-b.md` present it returns
`004`. -/
theorem getNextADRNumber_spec :
    getNextADRNumberL none = "001".data ∧
    getNextADRNumberL (some []) = "001".data ∧
    (∀ f fs, adrNumOf f = none →
      getNextADRNumberL (some (f :: fs)) = getNextADRNumberL (some fs)) ∧
    (∀ fs, getNextADRNumberL (some fs) =
      sprintf03 (((fs.filterMap adrNumOf).foldl max 0) + 1)) ∧
    getNextADRNumberL (some [⟨"adr-001-a.md".data, false⟩,
      ⟨"adr-003-b.md".data, false⟩]) = "004".data := by
  refine ⟨rfl, by decide, ?_, ?_, by decide⟩
  · intro f fs h
    simp only [getNextADRNumberL, List.foldl_cons]
    rw [h]
  · intro fs
    simp only [getNextADRNumberL]
    rw [getNextADRNumber_fold]

/-- Witness for C5: a subdirectory entry is skipped. -/
theorem getNextADRNumber_spec_witness :
    getNextADRNumberL (some [⟨"subdir".data, true⟩, ⟨"adr-002-x.md".data, false⟩]) =
      getNextADRNumberL (some [⟨"adr-002-x.md".data, false⟩]) :=
  getNextADRNumber_spec.2.2.1 ⟨"subdir".data, true⟩ _ (by decide)

/-! ## Claim C6 -/

theorem lexLe_cons (a b : Char) (as bs : Str) :
    lexLe (a :: as) (b :: bs) =
      if a < b then true else if b < a then false else lexLe as bs := rfl

theorem strLe_total : ∀ a b : Str, strLe a b ∨ strLe b a
  | [], _ => Or.inl (by simp [strLe, lexLe])
  | _ :: _, [] => Or.inr (by simp [strLe, lexLe])
  | a :: as, b :: bs => by
    rcases lt_trichotomy a b with h | rfl | h
    · exact Or.inl (by simp [strLe, lexLe_cons, h])
    · rcases strLe_total as bs with h2 | h2
      · exact Or.inl (by simpa [strLe, lexLe_cons, lt_irrefl] using h2)
      · exact Or.inr (by simpa [strLe, lexLe_cons, lt_irrefl] using h2)
    · exact Or.inr (by simp [strLe, lexLe_cons, h])

theorem strLe_trans : ∀ a b c : Str, strLe a b → strLe b c → strLe a c
  | [], _, _, _, _ => by simp [strLe, lexLe]
  | _ :: _, [], _, h1, _ => by simp [strLe, lexLe] at h1
  | _ :: _, _ :: _, [], _, h2 => by simp [strLe, lexLe] at h2
  | a :: as, b :: bs, c :: cs, h1, h2 => by
    simp only [strLe, lexLe_cons] at h1 h2 ⊢
    by_cases hab : a < b
    · by_cases hbc : b < c
      · simp [lt_trans hab hbc]
      · by_cases hcb : c < b
        · rw [if_neg hbc, if_pos hcb] at h2
          exact absurd h2 (by simp)
        · have he : b = c := le_antisymm (not_lt.1 hcb) (not_lt.1 hbc)
          subst he
          simp [hab]
    · by_cases hba : b < a
      · rw [if_neg hab, if_pos hba] at h1
        exact absurd h1 (by simp)
      · have he : a = b := le_antisymm (not_lt.1 hba) (not_lt.1 hab)
        subst he
        rw [if_neg hab, if_neg hba] at h1
        by_cases hac : a < c
        · simp [hac]
        · by_cases hca : c < a
          · rw [if_neg hac, if_pos hca] at h2
            exact absurd h2 (by simp)
          · rw [if_neg hac, if_neg hca] at h2 ⊢
            exact strLe_trans as bs cs h1 h2

theorem strLe_antisymm : ∀ a b : Str, strLe a b → strLe b a → a = b
  | [], [], _, _ => rfl
  | [], _ :: _, _, h2 => by simp [strLe, lexLe] at h2
  | _ :: _, [], h1, _ => by simp [strLe, lexLe] at h1
  | a :: as, b :: bs, h1, h2 => by
    simp only [strLe, lexLe_cons] at h1 h2
    by_cases hab : a < b
    · rw [if_neg (lt_asymm hab), if_pos hab] at h2
      exact absurd h2 (by simp)
    · by_cases hba : b < a
      · rw [if_neg hab, if_pos hba] at h1
        exact absurd h1 (by simp)
      · have he : a = b := le_antisymm (not_lt.1 hba) (not_lt.1 hab)
        subst he
        rw [if_neg hab, if_neg hba] at h1
        rw [if_neg hba, if_neg hab] at h2
        rw [strLe_antisymm as bs h1 h2]

instance : IsTotal Str strLe := ⟨strLe_total⟩

instance : IsTrans Str strLe := ⟨strLe_trans⟩

instance : IsAntisymm Str strLe := ⟨strLe_antisymm⟩

/-- C6: the generated index content is a pure function of the set of
record files: permuting the directory listing does not change it; entries
excluded by the record filter (subdirectories, non-md entries, the
reserved index and template files) do not affect it; the emitted filename
order is sorted ascending by byte-wise lexicographic comparison; and for
records 001 and 002 created in the opposite order on disk, 001 is listed
first. -/
theorem updateIndexContent_spec :
    (∀ files₁ files₂ : List DirEntry, files₁.Perm files₂ →
      updateIndexContent files₁ = updateIndexContent files₂) ∧
    (∀ (files : List DirEntry) (f : DirEntry), isRecordEntry f = false →
      updateIndexContent (f :: files) = updateIndexContent files) ∧
    (∀ files : List DirEntry, (sortStrings (recordNames files)).Sorted strLe) ∧
    updateIndexContent [⟨"adr-002-b.md".data, false⟩, ⟨"adr-001-a.md".data, false⟩] =
      indexHeaderL ++ "- [001 A](adr-001-a.md)\n- [002 B](adr-002-b.md)\n".data := by
  refine ⟨?_, ?_, ?_, by decide⟩
  · intro f1 f2 hp
    have hperm : (recordNames f1).Perm (recordNames f2) := (hp.filter _).map _
    have hsort : sortStrings (recordNames f1) = sortStrings (recordNames f2) :=
      List.eq_of_perm_of_sorted
        (((List.perm_insertionSort strLe _).trans hperm).trans
          (List.perm_insertionSort strLe _).symm)
        (List.sorted_insertionSort strLe _) (List.sorted_insertionSort strLe _)
    unfold updateIndexContent
    rw [hsort]
  · intro files f h
    unfold updateIndexContent recordNames
    rw [List.filter_cons_of_neg (by simp [h])]
  · intro files
    exact List.sorted_insertionSort strLe _

/-- Witness for C6: swapping the two listing entries leaves the index
content unchanged. -/
theorem updateIndexContent_spec_witness :
    updateIndexContent [⟨"adr-001-a.md".data, false⟩, ⟨"adr-002-b.md".data, false⟩] =
      updateIndexContent [⟨"adr-002-b.md".data, false⟩, ⟨"adr-001-a.md".data, false⟩] :=
  updateIndexContent_spec.1 _ _ (List.Perm.swap _ _ _)

/-! ## Claim C10 -/

/-- C10: a filename with no hyphen left after trimming the `.md` extension
is returned unchanged by the display-title extraction, extension included;
and such a file, when present in the store as a record entry, appears in
the generated index entry list with its raw filename as its display
title. -/
theorem extractTitle_no_hyphen_spec :
    (∀ name : Str, '-' ∉ goTrimSuffix mdExtL name →
      extractTitleFromFilenameL name = name) ∧
    (∀ (files : List DirEntry) (f : DirEntry), f ∈ files →
      isRecordEntry f = true → '-' ∉ goTrimSuffix mdExtL f.name →
      "- [".data ++ f.name ++ "](".data ++ f.name ++ ")\n".data ∈
        (sortStrings (recordNames files)).map indexEntryLine) := by
  have hmain : ∀ name : Str, '-' ∉ goTrimSuffix mdExtL name →
      extractTitleFromFilenameL name = name := by
    intro name h
    simp only [extractTitleFromFilenameL]
    rw [splitFirst_not_mem h]
  refine ⟨hmain, ?_⟩
  intro files f hmem hrec hnh
  have hentry : indexEntryLine f.name =
      "- [".data ++ f.name ++ "](".data ++ f.name ++ ")\n".data := by
    unfold indexEntryLine
    rw [hmain f.name hnh]
  rw [← hentry]
  apply List.mem_map_of_mem
  rw [show sortStrings (recordNames files) = List.insertionSort strLe (recordNames files) from rfl]
  rw [(List.perm_insertionSort strLe (recordNames files)).mem_iff]
  exact List.mem_map_of_mem _ (List.mem_filter.2 ⟨hmem, hrec⟩)

/-- Witness for C10: the record file `notes.md` (no hyphen) appears in the
index entry list with its raw filename. -/
theorem extractTitle_no_hyphen_spec_witness :
    "- [notes.md](notes.md)\n".data ∈
      (sortStrings (recordNames [⟨"notes.md".data, false⟩])).map indexEntryLine :=
  extractTitle_no_hyphen_spec.2 [⟨"notes.md".data, false⟩] ⟨"notes.md".data, false⟩
    (by simp) (by decide) (by decide)

/-! ## Claim C7 -/

/-- C7 (amended): for a canonical filename built from the fixed prefix, an
all-digit sequence number and a slug, the display-title extraction splits
at the first hyphen — which separates the fixed `adr` prefix, not the
sequence number — so the resulting display title starts with (and hence
contains) the sequence number followed by a space. -/
theorem extractTitle_retains_number (n s : Str)
    (hd : ∀ c ∈ n, c.isDigit = true) :
    ∃ rest, extractTitleFromFilenameL
      (("adr-".data ++ n ++ ('-' :: s)) ++ mdExtL) = n ++ ' ' :: rest := by
  simp only [extractTitleFromFilenameL]
  rw [goTrimSuffix_append, List.append_assoc]
  rw [show splitFirst '-' ("adr-".data ++ (n ++ '-' :: s)) =
    ["adr".data, n ++ '-' :: s] from rfl]
  show ∃ rest, replaceAllL ['A', 'd', 'r', ' '] ['A', 'D', 'R', ' ']
    (goTitleEnglish (replaceAllL ['-'] [' '] (n ++ '-' :: s))) = n ++ ' ' :: rest
  rw [replaceAllL_single, List.map_append]
  have hmapn : n.map (fun c => if c = '-' then ' ' else c) = n := by
    rw [show n.map (fun c => if c = '-' then ' ' else c) = n.map id from
      List.map_congr_left fun c hc => by simp [digit_ne_hyphen (hd c hc)]]
    exact List.map_id n
  rw [hmapn]
  rw [show (('-' :: s).map (fun c => if c = '-' then ' ' else c)) =
    ' ' :: s.map (fun c => if c = '-' then ' ' else c) from by simp]
  show ∃ rest, replaceAllL ['A', 'd', 'r', ' '] ['A', 'D', 'R', ' ']
    (goTitleAux false (n ++ ' ' :: s.map fun c => if c = '-' then ' ' else c)) =
    n ++ ' ' :: rest
  rw [goTitleAux_digits_space hd false]
  rw [show n ++ ' ' ::
      goTitleAux false (s.map fun c => if c = '-' then ' ' else c) =
    (n ++ [' ']) ++
      goTitleAux false (s.map fun c => if c = '-' then ' ' else c) from by simp]
  rw [replaceAllL_skip_front ?hpre]
  · exact ⟨replaceAllL ['A', 'd', 'r', ' '] ['A', 'D', 'R', ' ']
      (goTitleAux false (s.map fun c => if c = '-' then ' ' else c)), by simp⟩
  case hpre =>
    intro c hc
    rcases List.mem_append.1 hc with hc | hc
    · exact digit_ne_A (hd c hc)
    · simp only [List.mem_singleton] at hc
      subst hc
      decide

/-- Counterexample to C7 as stated: the extraction splits off only the
fixed `adr` prefix at the first hyphen, so the display title of
`adr-001-use-postgres.md` contains the sequence number `001`. -/
theorem extractTitle_contains_number_counterexample :
    extractTitleFromFilenameL "adr-001-use-postgres.md".data =
      "001 Use Postgres".data ∧
    ∃ a b, extractTitleFromFilenameL "adr-001-use-postgres.md".data =
      a ++ "001".data ++ b :=
  ⟨by decide, ⟨[], " Use Postgres".data, by decide⟩⟩

/-- Witness for C7: the display title of `adr-001-db.md` starts with
`001 `. -/
theorem extractTitle_retains_number_witness :
    ∃ rest, extractTitleFromFilenameL
      (("adr-".data ++ "001".data ++ ('-' :: "db".data)) ++ mdExtL) =
      "001".data ++ ' ' :: rest :=
  extractTitle_retains_number "001".data "db".data (by decide)

/-! ## Claim C8 -/

set_option maxHeartbeats 2000000 in
theorem render_nil (number status title date : Str) :
    renderTemplateL number status title date [] = [] := by
  unfold renderTemplateL
  rfl

theorem render_number (number status title date rest : Str) :
    renderTemplateL number status title date (phNumberL ++ rest) =
      number ++ renderTemplateL number status title date rest := by
  conv_lhs => unfold renderTemplateL
  rw [dif_pos (hasPrefixL_append_self phNumberL rest)]
  rw [List.drop_left]

theorem render_status (number status title date rest : Str) :
    renderTemplateL number status title date (phStatusL ++ rest) =
      status ++ renderTemplateL number status title date rest := by
  have h1 : hasPrefixL phNumberL (phStatusL ++ rest) = false := rfl
  conv_lhs => unfold renderTemplateL
  rw [dif_neg (by simp [h1]), dif_pos (hasPrefixL_append_self phStatusL rest)]
  rw [List.drop_left]

theorem render_title (number status title date rest : Str) :
    renderTemplateL number status title date (phTitleL ++ rest) =
      title ++ renderTemplateL number status title date rest := by
  have h1 : hasPrefixL phNumberL (phTitleL ++ rest) = false := rfl
  have h2 : hasPrefixL phStatusL (phTitleL ++ rest) = false := rfl
  conv_lhs => unfold renderTemplateL
  rw [dif_neg (by simp [h1]), dif_neg (by simp [h2]),
    dif_pos (hasPrefixL_append_self phTitleL rest)]
  rw [List.drop_left]

theorem render_date (number status title date rest : Str) :
    renderTemplateL number status title date (phDateL ++ rest) =
      date ++ renderTemplateL number status title date rest := by
  have h1 : hasPrefixL phNumberL (phDateL ++ rest) = false := rfl
  have h2 : hasPrefixL phStatusL (phDateL ++ rest) = false := rfl
  have h3 : hasPrefixL phTitleL (phDateL ++ rest) = false := rfl
  conv_lhs => unfold renderTemplateL
  rw [dif_neg (by simp [h1]), dif_neg (by simp [h2]),
    dif_neg (by simp [h3]), dif_pos (hasPrefixL_append_self phDateL rest)]
  rw [List.drop_left]

set_option maxHeartbeats 2000000 in
theorem render_char (number status title date : Str) (c : Char) (rest : Str)
    (h1 : hasPrefixL phNumberL (c :: rest) = false)
    (h2 : hasPrefixL phStatusL (c :: rest) = false)
    (h3 : hasPrefixL phTitleL (c :: rest) = false)
    (h4 : hasPrefixL phDateL (c :: rest) = false) :
    renderTemplateL number status title date (c :: rest) =
      c :: renderTemplateL number status title date rest := by
  conv_lhs => unfold renderTemplateL
  rw [dif_neg (by simp [h1]), dif_neg (by simp [h2]),
    dif_neg (by simp [h3]), dif_neg (by simp [h4])]

/-- C8: the renderer is a total single pass over the template.  The empty
template renders to itself; a template starting with a placeholder token
renders to the corresponding value followed by the rendering of the rest —
for every value, so a substituted value is never itself re-scanned; a
template whose head matches no placeholder keeps its first character; an
unrecognized token passes through unchanged; and repeated placeholders are
all replaced. -/
theorem renderTemplate_spec (number status title date : Str) :
    renderTemplateL number status title date [] = [] ∧
    (∀ rest, renderTemplateL number status title date (phNumberL ++ rest) =
      number ++ renderTemplateL number status title date rest) ∧
    (∀ rest, renderTemplateL number status title date (phStatusL ++ rest) =
      status ++ renderTemplateL number status title date rest) ∧
    (∀ rest, renderTemplateL number status title date (phTitleL ++ rest) =
      title ++ renderTemplateL number status title date rest) ∧
    (∀ rest, renderTemplateL number status title date (phDateL ++ rest) =
      date ++ renderTemplateL number status title date rest) ∧
    (∀ c rest, hasPrefixL phNumberL (c :: rest) = false →
      hasPrefixL phStatusL (c :: rest) = false →
      hasPrefixL phTitleL (c :: rest) = false →
      hasPrefixL phDateL (c :: rest) = false →
      renderTemplateL number status title date (c :: rest) =
        c :: renderTemplateL number status title date rest) ∧
    renderTemplateL number status title date "\x7b\x7bx\x7d\x7d".data =
      "\x7b\x7bx\x7d\x7d".data ∧
    (∀ rest, renderTemplateL number status title date
        (phTitleL ++ '-' :: (phTitleL ++ rest)) =
      title ++ '-' :: (title ++ renderTemplateL number status title date rest)) := by
  refine ⟨render_nil .., render_number number status title date,
    render_status number status title date, render_title number status title date,
    render_date number status title date, render_char number status title date,
    ?_, ?_⟩
  · rw [show ("\x7b\x7bx\x7d\x7d".data : Str) =
      '\x7b' :: '\x7b' :: 'x' :: '\x7d' :: '\x7d' :: [] from rfl]
    rw [render_char number status title date '\x7b'
      ('\x7b' :: 'x' :: '\x7d' :: '\x7d' :: []) rfl rfl rfl rfl]
    rw [render_char number status title date '\x7b'
      ('x' :: '\x7d' :: '\x7d' :: []) rfl rfl rfl rfl]
    rw [render_char number status title date 'x'
      ('\x7d' :: '\x7d' :: []) rfl rfl rfl rfl]
    rw [render_char number status title date '\x7d' ('\x7d' :: []) rfl rfl rfl rfl]
    rw [render_char number status title date '\x7d' [] rfl rfl rfl rfl]
    rw [render_nil]
  · intro rest
    rw [render_title, render_char number status title date '-' (phTitleL ++ rest)
      rfl rfl rfl rfl, render_title]

/-- Witness for C8: a character that starts no placeholder passes through
and the following number placeholder is replaced. -/
theorem renderTemplate_spec_witness :
    renderTemplateL "9".data "S".data "T".data "D".data ('x' :: phNumberL) =
      'x' :: "9".data := by
  have h := renderTemplate_spec "9".data "S".data "T".data "D".data
  rw [h.2.2.2.2.2.1 'x' phNumberL (by decide) (by decide) (by decide) (by decide)]
  rw [show (phNumberL : Str) = phNumberL ++ [] from by simp]
  rw [h.2.1 [], h.1]
  simp

/-! ## Claim C1 -/

/-- C1 (amended): given the same template string and the same number,
status, title and date, the two front ends compute the same new-record
filename and the same rendered content — their creation paths are the same
algorithm — but their update paths are not equivalent: the flag-based
front end's textual status rewrite differs from the interactive merge. -/
theorem frontends_create_agree_update_differ :
    (∀ number title, interactiveCreateFilename number title =
      flagCreateFilename number title) ∧
    (∀ template number status title date,
      interactiveCreateContent template number status title date =
        flagCreateContent template number status title date) ∧
    (∃ content status, flagUpdateStatusL content status ≠
      updateStatusL content status) :=
  ⟨fun _ _ => rfl, fun _ _ _ _ _ => rfl,
    ⟨"**Status**: Accepted".data, "Superseded".data, by decide⟩⟩

/-- Counterexample to C1 as stated: on the body `**Status**: Accepted`
updated to `Superseded`, the flag path's textual replacement and the
interactive path's merge produce different record content. -/
theorem frontends_update_counterexample :
    flagUpdateStatusL "**Status**: Accepted".data "Superseded".data ≠
      updateStatusL "**Status**: Accepted".data "Superseded".data := by decide

/-- Concrete behavior of the merge: duplicate status, previous-status and
date lines collapse, the pair lands at the first status line's position. -/
theorem updateStatus_collapse_example :
    updateStatusL "**Status**: A\n**Previous Status**: Z\n**Date**: 1\n**Date**: 2\n**Status**: B\nx".data "C".data =
    "**Status**: C  \n**Previous Status**: A  \n**Date**: 1\nx".data := by decide

/-- Concrete behavior of the merge: with no status line and one heading,
the pair is inserted after the heading, preceded by a blank line. -/
theorem updateStatus_insert_heading_example :
    updateStatusL "# ADR 1: T\nbody".data "Accepted".data =
    "# ADR 1: T\n\n**Status**: Accepted\n**Previous Status**: \nbody".data := by decide

/-- Concrete behavior of the merge: with no status line and no heading,
the pair is inserted at the very top, followed by a blank line. -/
theorem updateStatus_insert_top_example :
    updateStatusL "body".data "Accepted".data =
    "**Status**: Accepted\n**Previous Status**: \n\nbody".data := by decide

end Adrgen
